import Mathlib

/-!
Shallow embedding of the trust-region-constrained optimizer family of the
combopt repository: the `TrManagerBase` protocol, the `GeneticAlgorithm`
optimizer and the `MultiArmedBandit` optimizer.

Samples are vectors over a canonical integer encoding; we model them as
`List ℤ`.  Objective values, probabilities and radii are modelled as `ℚ`
(exact rationals) wherever the source does plain arithmetic, and as `ℝ`
where the source genuinely uses `exp` / `log` / `sqrt`
(`MultiArmedBandit.update_prob_dist` and the `gamma` construction).
Randomness (`np.random.*`) is modelled by passing the drawn values as
explicit oracle arguments, with the constraints `np.random.choice` etc.
guarantee stated as hypotheses.  Bounded `while` loops are modelled with
explicit fuel returning `Option`.
-/

namespace CombOpt

/-! ## Generic list helpers mirroring `numpy` reductions -/

/-- Numpy `l.max()` of an array: maximum of a list, with the head as the
starting accumulator (the source only applies it to non-empty arrays). -/
def listMax : List ℚ → ℚ
  | [] => 0
  | x :: xs => xs.foldl max x

/-- Numpy `l.min()` of an array, as `listMax`. -/
def listMin : List ℚ → ℚ
  | [] => 0
  | x :: xs => xs.foldl min x

/-! ## MultiArmedBandit.observe — reward computation

Source: `multi_armed_bandit.py`, `MultiArmedBandit.observe`.
The observed batch is appended to `self.data_buffer` (line 183) and then,
for every batch sample and every dimension, the reward is computed from
the buffer rows whose category at that dimension matches the sample
(lines 203-223).  A buffer row is a pair (sample, objective value). -/

/-- One observation row of the data buffer: an encoded sample and its
scalar objective value. -/
abbrev BufferRow := List ℤ × ℚ

/-- Mirrors `indices = self.data_buffer.x[:, dim_dix] == _x[dim_dix]`:
the buffer rows whose category at dimension `j` equals the sample's. -/
def matchList (buffer : List BufferRow) (x : List ℤ) (j : ℕ) : List BufferRow :=
  buffer.filter (fun r => r.1.getD j 0 = x.getD j 0)

/-- The per-(sample, dimension) MAB reward, from `observe` lines 208-223:
`rewards = -y[indices]`; reward `0` when no row matches, else
`rewards.max()`, min-max rescaled over all `-y` seen so far whenever the
observed `y` range is non-degenerate. -/
def mabReward (bufferY : List ℚ) (matchY : List ℚ) : ℚ :=
  if matchY = [] then 0
  else
    let rmax := listMax (matchY.map (fun y => -y))
    if listMax bufferY ≠ listMin bufferY then
      2 * (rmax - listMin (bufferY.map (fun y => -y))) /
        (listMax (bufferY.map (fun y => -y)) - listMin (bufferY.map (fun y => -y))) - 1
    else rmax

/-- Modelled from the spec: the external `DataBuffer.append` (the data
buffer itself is outside the core, described in the spec as an
append-only observation store) — the batch rows are concatenated onto
the previously observed rows. -/
def dataBufferAppend (buffer batch : List BufferRow) : List BufferRow :=
  buffer ++ batch

/-- The reward `observe` computes for batch sample `x` at dimension `j`,
once the batch has been appended: the buffer argument is already
`old buffer ++ batch`. -/
def mabRewardAt (buffer : List BufferRow) (x : List ℤ) (j : ℕ) : ℚ :=
  mabReward (buffer.map Prod.snd) ((matchList buffer x j).map Prod.snd)

/-! ## MultiArmedBandit.observe — log-weight update

Source lines 226-242: per dimension, iterate over the batch rows; for row
`ii` with selected category `ht` and reward `Gt_ht_b`,
`estimated_reward = Gt_ht_b / prob_dist[ht]` and
`log_weights[ht] += len(mab_rewards) * estimated_reward * gamma / num_cats`,
clipped to `[-30, 30]`. -/

/-- Numpy `.clip(min=-30, max=30)`. -/
def clip30 (q : ℚ) : ℚ := if q < -30 then -30 else if 30 < q then 30 else q

/-- The inner loop body applied to each batch row `(ht, reward)`. -/
def logWeightStep (probDist : List ℚ) (gamma : ℚ) (numCats batchLen : ℕ)
    (lw : List ℚ) (row : ℕ × ℚ) : List ℚ :=
  lw.set row.1
    (clip30 (lw.getD row.1 0 + batchLen * (row.2 / probDist.getD row.1 0) * gamma / numCats))

/-- The full per-dimension weight update of `observe`: fold the step over
the batch rows (`len(mab_rewards)` is the number of batch rows). -/
def updateLogWeightsDim (probDist : List ℚ) (gamma : ℚ) (numCats : ℕ)
    (rows : List (ℕ × ℚ)) (lw : List ℚ) : List ℚ :=
  rows.foldl (logWeightStep probDist gamma numCats rows.length) lw

/-- Modelled from the spec (refinement comparison only): the weight update
as the spec states it, `log_weight[c] += batch_size · reward · gamma / n_cats`
clipped to `[-30, 30]` — without the division by `prob_dist[c]`. -/
def specLogWeightUpdate (lw reward gamma : ℚ) (numCats batchLen : ℕ) : ℚ :=
  clip30 (lw + batchLen * reward * gamma / numCats)

/-! ## GeneticAlgorithm constructor validation

Source: `genetic_algorithm.py` lines 29-61.  The constructor asserts that
the space is nominal+ordinal only, bumps an odd `num_elite` to the next
even number, and asserts `num_parents >= num_elite`.  It never compares
`num_parents` with `pop_size`. -/

structure GaConfig where
  popSize : ℕ
  numParents : ℕ
  numElite : ℕ
  deriving Repr, DecidableEq

/-- The validated configuration `GeneticAlgorithm.__init__` produces:
`none` models a failed `assert`.  `numDims`, `numNominal`, `numOrdinal`
describe the search space. -/
def gaInit (numDims numNominal numOrdinal : ℕ)
    (popSize numParents numElite : ℕ) : Option GaConfig :=
  if numNominal + numOrdinal ≠ numDims then none
  else
    let numElite' := if numElite % 2 ≠ 0 then numElite + 1 else numElite
    if numParents < numElite' then none
    else some ⟨popSize, numParents, numElite'⟩

/-! ## GeneticAlgorithm._mutate — category domain

Source lines 384 and 395:
`categories = np.array([j for j in range(int(lb[idx]), int(ub[idx])) if j != x[i, idx]])`.
Note `range(lb, ub)` excludes `ub`. -/

/-- The candidate categories `_mutate` draws from at a coordinate with
bounds `lb`, `ub` and current value `cur`. -/
def mutCategories (lb ub cur : ℤ) : List ℤ :=
  ((List.range (ub - lb).toNat).map (fun k => lb + k)).filter (fun j => j ≠ cur)

/-- Modelled from the spec (refinement comparison only): the categories the
spec says mutation draws from — the coordinate's full integer domain
`[lb, ub]` excluding the current value. -/
def specMutCategories (lb ub cur : ℤ) : List ℤ :=
  ((List.range (ub + 1 - lb).toNat).map (fun k => lb + k)).filter (fun j => j ≠ cur)

/-! ## Hamming distance and trust-region projection

Source: `distance_metrics.hamming_distance(x1, x2, normalize=False)` counts
the coordinates at which the two encoded samples differ; the projection
in `GeneticAlgorithm._crossover` (lines 350-360) and in
`MultiArmedBandit.method_suggest` (lines 101-108, 122-130) resets a chosen
set of differing coordinates to the trust-region center's values. -/

/-- Function `hamming_distance(a, b, normalize=False)` for a single pair of encoded
samples. -/
def hammingDist (a b : List ℤ) : ℕ :=
  ((Finset.range a.length).filter (fun i => a.getD i 0 ≠ b.getD i 0)).card

/-- Mirrors `mask = x != center` as the list of differing coordinate indices:
the population `np.random.choice` draws the reset indices from. -/
def diffPositions (x center : List ℤ) : List ℕ :=
  (List.range x.length).filter (fun i => x.getD i 0 ≠ center.getD i 0)

/-- Mirrors `x[indices] = center[indices]`: reset the coordinates listed in `s`
to the center's values.  `s` is the oracle for the `np.random.choice(...,
replace=False)` draw. -/
def projectToCenter (x center : List ℤ) (s : List ℕ) : List ℤ :=
  (List.range x.length).map (fun i => if i ∈ s then center.getD i 0 else x.getD i 0)

/-! ## GeneticAlgorithm._crossover

Source lines 333-369: single-point crossover at a cut index drawn from
`[1, num_dims - 1)`, exchanging the coordinates before the cut; with a
trust region, each child is projected back whenever its Hamming distance
to the center exceeds `get_nominal_radius()`.  `s1`, `s2` are the oracles
for the two reset-index draws. -/

/-- The prefix swap `x1_[:idx] = x2[:idx]`. -/
def crossoverSwap (idx : ℕ) (x1 x2 : List ℤ) : List ℤ :=
  x2.take idx ++ x1.drop idx

/-- One child of `_crossover` under a trust region (child 1; child 2 is
the same with the parents exchanged): swap, then project if out of the
Hamming ball of radius `r` around `center`. -/
def crossoverChildTr (idx : ℕ) (x1 x2 center : List ℤ) (r : ℕ) (s : List ℕ) : List ℤ :=
  let c := crossoverSwap idx x1 x2
  if hammingDist c center > r then projectToCenter c center s else c

/-! ## GeneticAlgorithm._mutate

Source lines 371-400.  Per sample row, one coordinate `idx` is drawn, a
category different from the current value is drawn from
`range(lb[idx], ub[idx])`, and — with a trust region — the candidate is
rejected and redrawn until its Hamming distance to the center is at most
`self.tr_manager.radii['nominal']`.  The oracle `choices` lists the drawn
`(idx, position in the category list)` pairs; fuel bounds the loop. -/

/-- One candidate of the mutation loop: copy the row and overwrite the
drawn coordinate with the drawn category. -/
def mutCandidate (x : List ℤ) (lb ub : List ℤ) (idx catPos : ℕ) : List ℤ :=
  x.set idx ((mutCategories (lb.getD idx 0) (ub.getD idx 0) (x.getD idx 0)).getD catPos 0)

/-- The rejection-sampling mutation loop of `_mutate` under a trust
region, for one sample row: retry until the candidate lies within Hamming
distance `radiiNominal` of the center.  Returns `none` when the fuel (or
the oracle) runs out. -/
def mutateTrLoop (lb ub center : List ℤ) (radiiNominal : ℕ) (x : List ℤ) :
    ℕ → List (ℕ × ℕ) → Option (List ℤ)
  | 0, _ => none
  | _, [] => none
  | fuel + 1, (idx, catPos) :: rest =>
    let cand := mutCandidate x lb ub idx catPos
    if hammingDist center cand ≤ radiiNominal then some cand
    else mutateTrLoop lb ub center radiiNominal x fuel rest

/-! ## GeneticAlgorithm._generate_new_population — deduplication

Source lines 268-324.  Child 1 is accepted when it differs from every row
already placed in `pop` and (with `allow_repeating_suggestions` false)
from every previously observed row, else from every elite row.  Child 2's
acceptance (lines 299-308) checks only the observed rows (resp. the elite
rows) — it is never compared against `pop`. -/

/-- Mirrors `torch.logical_not((c == rows).all(axis=1)).all()`: the candidate
differs from every row of the list. -/
def differsAll (c : List ℤ) (rows : List (List ℤ)) : Bool :=
  rows.all (fun r => c ≠ r)

/-- Acceptance test for the first mutated child (lines 276-283). -/
def accept1 (allowRepeating : Bool) (pop observed elite : List (List ℤ))
    (c : List ℤ) : Bool :=
  differsAll c pop &&
    (if !allowRepeating then differsAll c observed else differsAll c elite)

/-- Acceptance test for the second mutated child (lines 303-308): no
check against the rows already placed in `pop`. -/
def accept2 (allowRepeating : Bool) (observed elite : List (List ℤ))
    (c : List ℤ) : Bool :=
  if !allowRepeating then differsAll c observed else differsAll c elite

/-! ## GeneticAlgorithm._generate_new_population — elitism

Source lines 228-237: on the first generation the elite set is the best
`num_elite` rows of the population sorted ascending by objective;
afterwards the old elite set is merged with this generation's top
`num_elite`, re-sorted by objective, and trimmed to `num_elite`.  A
population member is a (sample, objective value) pair. -/

/-- Sort (sample, y) pairs ascending by y — `argsort` on the objective. -/
def sortByY (l : List (List ℤ × ℚ)) : List (List ℤ × ℚ) :=
  l.mergeSort (fun a b => a.2 ≤ b.2)

/-- The elite-set update of `_generate_new_population`: `sortedPop` is the
accumulated population already sorted ascending by objective, `elite` the
previous elite set (`none` on the first generation). -/
def eliteStep (numElite : ℕ) (elite : Option (List (List ℤ × ℚ)))
    (sortedPop : List (List ℤ × ℚ)) : List (List ℤ × ℚ) :=
  match elite with
  | none => sortedPop.take numElite
  | some old => (sortByY (old ++ sortedPop.take numElite)).take numElite

/-! ## MultiArmedBandit — gamma and update_prob_dist

Source lines 52-64 (constructor) and 290-300 (`update_prob_dist`), over
real arithmetic: `gamma[j]` involves `sqrt`/`log`/`e`, the probabilities
involve `exp`. -/

/-- Mirrors `self.best_ube = 2 * max_n_iter / 3`. -/
noncomputable def bestUbe (maxNIter : ℕ) : ℝ := 2 * maxNIter / 3

/-- The per-dimension exploration rate `gamma[j]` computed in the
constructor (and identically in `restart`). -/
noncomputable def gammaOf (nCats batchSize : ℕ) (ube : ℝ) : ℝ :=
  if nCats > batchSize then
    Real.sqrt (nCats * Real.log (nCats / batchSize) /
      ((Real.exp 1 - 1) * batchSize * ube))
  else
    Real.sqrt (nCats * Real.log nCats / ((Real.exp 1 - 1) * ube))

/-- Method `update_prob_dist`, for one dimension: `weights = exp(log_weights)`,
`norm = sum(weights)`,
`prob[c] = (1 - gamma) * (weights[c] / norm) + gamma / n_cats`
(the source's `len(weights)` is the number of categories). -/
noncomputable def updateProbDistDim (logWeights : List ℝ) (gamma : ℝ) : List ℝ :=
  let weights := logWeights.map Real.exp
  let norm := weights.sum
  weights.map (fun w => (1 - gamma) * (w / norm) + gamma / logWeights.length)

/-! ## TrManagerBase.get_nominal_radius

Source: `tr_manager_base.py` lines 109-118. -/

/-- The radius key for nominal variables. -/
def nominalKey : String :=
  "nominal"

/-- Model of `self.radii` of a trust-region manager: a finite string-keyed map,
modelled as an association list; plus the search space's nominal count. -/
structure TrManager where
  numNominal : ℕ
  radii : List (String × ℚ)
  deriving Repr

/-- Method `get_nominal_radius`: returns `1` when the space has exactly one
nominal dimension, else asserts `"nominal" in self.radii` and returns the
registered radius.  A failed assert is `Except.error`. -/
def getNominalRadius (tr : TrManager) : Except Unit ℚ :=
  if tr.numNominal = 1 then Except.ok 1
  else
    match tr.radii.lookup nominalKey with
    | none => Except.error ()
    | some r => Except.ok r

/-! ## Helper lemmas -/

theorem getD_projectToCenter (x center : List ℤ) (s : List ℕ) (i : ℕ)
    (h : i < x.length) :
    (projectToCenter x center s).getD i 0 =
      if i ∈ s then center.getD i 0 else x.getD i 0 := by
  unfold projectToCenter
  rw [List.getD_eq_getElem?_getD, List.getElem?_map, List.getElem?_range h]
  rfl

theorem length_projectToCenter (x center : List ℤ) (s : List ℕ) :
    (projectToCenter x center s).length = x.length := by
  simp [projectToCenter]

theorem hammingDist_projectToCenter (x center : List ℤ) (s : List ℕ)
    (hsub : s ⊆ diffPositions x center) (hnd : s.Nodup) :
    hammingDist (projectToCenter x center s) center =
      hammingDist x center - s.length := by
  unfold hammingDist
  rw [length_projectToCenter]
  have hset :
      (Finset.range x.length).filter
          (fun i => (projectToCenter x center s).getD i 0 ≠ center.getD i 0) =
        ((Finset.range x.length).filter
          (fun i => x.getD i 0 ≠ center.getD i 0)) \ s.toFinset := by
    ext i
    simp only [Finset.mem_filter, Finset.mem_sdiff, Finset.mem_range,
      List.mem_toFinset]
    constructor
    · rintro ⟨hi, hne⟩
      rw [getD_projectToCenter x center s i hi] at hne
      by_cases his : i ∈ s
      · simp [his] at hne
      · rw [if_neg his] at hne
        exact ⟨⟨hi, hne⟩, his⟩
    · rintro ⟨⟨hi, hne⟩, his⟩
      refine ⟨hi, ?_⟩
      rw [getD_projectToCenter x center s i hi, if_neg his]
      exact hne
  have hsubF : s.toFinset ⊆
      (Finset.range x.length).filter (fun i => x.getD i 0 ≠ center.getD i 0) := by
    intro i hi
    rw [List.mem_toFinset] at hi
    have hmem := hsub hi
    unfold diffPositions at hmem
    rw [List.mem_filter, List.mem_range] at hmem
    exact Finset.mem_filter.mpr ⟨Finset.mem_range.mpr hmem.1,
      of_decide_eq_true hmem.2⟩
  rw [hset, Finset.card_sdiff hsubF, List.toFinset_card_of_nodup hnd]

theorem foldl_logWeightStep_not_mem (probDist : List ℚ) (gamma : ℚ)
    (numCats B : ℕ) (rows : List (ℕ × ℚ)) :
    ∀ (lw : List ℚ) (c : ℕ), c ∉ rows.map Prod.fst →
      (rows.foldl (logWeightStep probDist gamma numCats B) lw).getD c 0 =
          lw.getD c 0 ∧
        (rows.foldl (logWeightStep probDist gamma numCats B) lw).length =
          lw.length := by
  induction rows with
  | nil => intro lw c _; exact ⟨rfl, rfl⟩
  | cons hd tl ih =>
    intro lw c hc
    simp only [List.map_cons, List.mem_cons, not_or] at hc
    have hstep := ih (logWeightStep probDist gamma numCats B lw hd) c
      (by simpa using hc.2)
    rw [List.foldl_cons]
    refine ⟨?_, ?_⟩
    · rw [hstep.1]
      unfold logWeightStep
      rw [List.getD_eq_getElem?_getD, List.getElem?_set_ne (Ne.symm hc.1),
        ← List.getD_eq_getElem?_getD]
    · rw [hstep.2]
      unfold logWeightStep
      exact List.length_set ..

theorem foldl_logWeightStep_mem (probDist : List ℚ) (gamma : ℚ)
    (numCats B : ℕ) (rows : List (ℕ × ℚ)) :
    ∀ (lw : List ℚ) (c : ℕ) (r : ℚ),
      (rows.map Prod.fst).Nodup → (c, r) ∈ rows → c < lw.length →
      (rows.foldl (logWeightStep probDist gamma numCats B) lw).getD c 0 =
        clip30 (lw.getD c 0 + B * (r / probDist.getD c 0) * gamma / numCats) := by
  induction rows with
  | nil => intro lw c r _ hmem; cases hmem
  | cons hd tl ih =>
    intro lw c r hnd hmem hlt
    simp only [List.map_cons, List.nodup_cons] at hnd
    rw [List.foldl_cons]
    rcases List.mem_cons.mp hmem with heq | htl
    · subst heq
      have hnotin : c ∉ tl.map Prod.fst := hnd.1
      have := (foldl_logWeightStep_not_mem probDist gamma numCats B tl
        (logWeightStep probDist gamma numCats B lw (c, r)) c hnotin).1
      rw [this]
      unfold logWeightStep
      rw [List.getD_eq_getElem?_getD, List.getElem?_set_self (by simpa using hlt)]
      rfl
    · have hcne : hd.1 ≠ c := by
        intro h
        exact hnd.1 (h ▸ List.mem_map.mpr ⟨(c, r), htl, rfl⟩)
      have hget : (logWeightStep probDist gamma numCats B lw hd).getD c 0 =
          lw.getD c 0 := by
        unfold logWeightStep
        rw [List.getD_eq_getElem?_getD, List.getElem?_set_ne hcne,
          ← List.getD_eq_getElem?_getD]
      have hlen : (logWeightStep probDist gamma numCats B lw hd).length =
          lw.length := by
        unfold logWeightStep; exact List.length_set ..
      rw [ih _ c r hnd.2 htl (hlen ▸ hlt), hget]

theorem sum_map_affine (l : List ℝ) (a b : ℝ) :
    (l.map (fun x => a * x + b)).sum = a * l.sum + l.length * b := by
  induction l with
  | nil => simp
  | cons x xs ih =>
    simp only [List.map_cons, List.sum_cons, List.length_cons, ih]
    push_cast
    ring

/-! ## Claims -/

/-- Claim C1, counterexample to the claim as stated: after observing the
single point `([0], 5)` the observed objective values are degenerate (all
equal to 5), yet `observe` computes the reward `-5`, not `0`: the
degenerate branch returns the unnormalized `rewards.max()`. -/
theorem mabReward_degenerate_cex :
    listMax [(5 : ℚ)] = listMin [(5 : ℚ)] ∧
      mabRewardAt [([0], 5)] [0] 0 = -5 ∧ (-5 : ℚ) ≠ 0 := by
  decide

/-- Claim C1 (amended): in `MultiArmedBandit.observe`, the per-(sample,
dimension) reward is 0 when no previously observed point shares the
sample's category at that dimension; when the observed objective values
are degenerate (all y equal) and a match exists, the reward equals the
unnormalized maximum of `-y` over the matching points. -/
theorem mabReward_fallback_cases (bufferY matchY : List ℚ) :
    (matchY = [] → mabReward bufferY matchY = 0) ∧
    (listMax bufferY = listMin bufferY → matchY ≠ [] →
      mabReward bufferY matchY = listMax (matchY.map (fun y => -y))) := by
  constructor
  · intro h
    simp [mabReward, h]
  · intro hdeg hne
    simp [mabReward, hne, hdeg]

/-- Witness for C1's amended theorem at `bufferY = [5]`, `matchY = [5]`. -/
theorem mabReward_fallback_cases_witness :
    mabReward [(5 : ℚ)] [] = 0 ∧
      mabReward [(5 : ℚ)] [5] = listMax ([(5 : ℚ)].map (fun y => -y)) :=
  ⟨(mabReward_fallback_cases [(5 : ℚ)] []).1 rfl,
   (mabReward_fallback_cases [(5 : ℚ)] [5]).2 (by decide) (by decide)⟩

/-- Claim C2: `_mutate` draws the replacement category from
`range(int(lb[idx]), int(ub[idx]))`, which excludes the coordinate's
upper bound `ub[idx]` — a valid category (elsewhere the code uses
`n_cats = ub + 1` categories `0..ub`).  At a coordinate with bounds
`lb = 0`, `ub = 2` and current value `0`, the code can only draw from
`{1}` while the spec's domain `[lb, ub]` minus the current value is
`{1, 2}`: the top category is never reachable by mutation. -/
theorem mutCategories_excludes_ub :
    mutCategories 0 2 0 = [1] ∧ specMutCategories 0 2 0 = [1, 2] ∧
      (2 : ℤ) ∉ mutCategories 0 2 0 := by
  decide

/-- Claim C3, counterexample to the claim as stated: a
`GeneticAlgorithm` construction with `pop_size = 2`, `num_parents = 4`,
`num_elite = 2` succeeds although `num_parents > pop_size` — the
constructor never compares `num_parents` with `pop_size`. -/
theorem gaInit_no_popsize_check_cex :
    gaInit 3 3 0 2 4 2 = some ⟨2, 4, 2⟩ ∧ 2 < 4 := by
  decide

/-- Claim C3 (amended): every successful `GeneticAlgorithm` construction
yields an even `num_elite` with `num_elite ≤ num_parents`; the relation
`num_parents ≤ pop_size` is not validated and can fail. -/
theorem gaInit_elite_invariants (numDims numNominal numOrdinal popSize
    numParents numElite : ℕ) (cfg : GaConfig)
    (h : gaInit numDims numNominal numOrdinal popSize numParents numElite =
      some cfg) :
    cfg.numElite % 2 = 0 ∧ cfg.numElite ≤ cfg.numParents := by
  unfold gaInit at h
  dsimp only at h
  split_ifs at h with h1 h2 h3 <;> cases h <;>
    exact ⟨by dsimp only; omega, by dsimp only; omega⟩

/-- Witness for C3's amended theorem at a concrete valid construction. -/
theorem gaInit_elite_invariants_witness :
    (⟨10, 4, 4⟩ : GaConfig).numElite % 2 = 0 ∧
      (⟨10, 4, 4⟩ : GaConfig).numElite ≤ (⟨10, 4, 4⟩ : GaConfig).numParents :=
  gaInit_elite_invariants 3 3 0 10 4 3 ⟨10, 4, 4⟩ (by decide)

/-- Claim C8: `get_nominal_radius` returns 1 whenever the search space
has exactly one nominal dimension; otherwise it fails when no radius
named "nominal" was ever registered, and returns the registered
"nominal" radius when one was. -/
theorem getNominalRadius_cases (tr : TrManager) :
    (tr.numNominal = 1 → getNominalRadius tr = Except.ok 1) ∧
    (tr.numNominal ≠ 1 → tr.radii.lookup nominalKey = none →
      getNominalRadius tr = Except.error ()) ∧
    (∀ r : ℚ, tr.numNominal ≠ 1 → tr.radii.lookup nominalKey = some r →
      getNominalRadius tr = Except.ok r) := by
  refine ⟨fun h1 => ?_, fun h1 h2 => ?_, fun r h1 h2 => ?_⟩ <;>
    simp [getNominalRadius, h1]
  · rw [h2]
  · rw [h2]

/-- Witness for C8 exercising all three cases at concrete managers. -/
theorem getNominalRadius_cases_witness :
    getNominalRadius ⟨1, []⟩ = Except.ok 1 ∧
      getNominalRadius ⟨2, []⟩ = Except.error () ∧
      getNominalRadius ⟨2, [(nominalKey, 3)]⟩ = Except.ok 3 :=
  ⟨(getNominalRadius_cases ⟨1, []⟩).1 rfl,
   (getNominalRadius_cases ⟨2, []⟩).2.1 (by decide) rfl,
   (getNominalRadius_cases ⟨2, [(nominalKey, 3)]⟩).2.2 3 (by decide) rfl⟩

/-- Claim C10: `observe` appends the batch to the data buffer before the
rewards are computed, so every batch sample matches at least itself at
every dimension: the matching-row list is never empty, hence the
`len(rewards) == 0` branch (reward 0 for "no prior match") is
unreachable inside `observe`. -/
theorem observe_selfmatch_nonempty (buffer batch : List BufferRow)
    (s : BufferRow) (hs : s ∈ batch) (j : ℕ) :
    s ∈ matchList (dataBufferAppend buffer batch) s.1 j ∧
      (matchList (dataBufferAppend buffer batch) s.1 j).map Prod.snd ≠ [] := by
  have hmem : s ∈ matchList (dataBufferAppend buffer batch) s.1 j :=
    List.mem_filter.mpr ⟨List.mem_append_right _ hs, by simp⟩
  refine ⟨hmem, fun h => ?_⟩
  rw [List.map_eq_nil_iff] at h
  rw [h] at hmem
  cases hmem

/-- Witness for C10 at a one-point batch. -/
theorem observe_selfmatch_nonempty_witness :
    ([0], (1 : ℚ)) ∈ matchList (dataBufferAppend [] [([0], 1)]) [0] 0 ∧
      (matchList (dataBufferAppend [] [([0], (1 : ℚ))]) [0] 0).map
        Prod.snd ≠ [] :=
  observe_selfmatch_nonempty [] [([0], 1)] ([0], 1) (by decide) 0

/-- Claim C4, counterexample to the claim as stated: with
`prob_dist[c] = 1/2`, reward 1, `gamma = 1`, one category and a one-row
batch, the code updates the log-weight to `clip(0 + 1·(1/(1/2))·1/1) = 2`,
while the claim's formula (no division by `prob_dist[c]`) gives
`clip(0 + 1·1·1/1) = 1`. -/
theorem logWeight_update_cex :
    updateLogWeightsDim [1/2] 1 1 [(0, 1)] [0] = [2] ∧
      specLogWeightUpdate 0 1 1 1 1 = 1 ∧ ((2 : ℚ) ≠ 1) := by
  refine ⟨?_, ?_, by norm_num⟩
  · norm_num [updateLogWeightsDim, logWeightStep, clip30]
  · norm_num [specLogWeightUpdate, clip30]

/-- Claim C4 (amended): in `observe`, for a batch whose selected
categories are pairwise distinct in dimension `j`, the log-weight of a
selected category `c` with reward `r` becomes
`log_weight[c] + batch_size · (r / prob_dist[c]) · gamma[j] / n_cats[j]`
(EXP3 importance weighting divides the reward by the category's sampling
probability), clipped to `[-30, 30]`. -/
theorem updateLogWeightsDim_closed_form (probDist lw : List ℚ) (gamma : ℚ)
    (numCats : ℕ) (rows : List (ℕ × ℚ)) (hnd : (rows.map Prod.fst).Nodup)
    (c : ℕ) (r : ℚ) (hmem : (c, r) ∈ rows) (hlt : c < lw.length) :
    (updateLogWeightsDim probDist gamma numCats rows lw).getD c 0 =
      clip30 (lw.getD c 0 +
        rows.length * (r / probDist.getD c 0) * gamma / numCats) :=
  foldl_logWeightStep_mem probDist gamma numCats rows.length rows lw c r
    hnd hmem hlt

/-- Witness for C4's amended theorem at a concrete two-row batch. -/
theorem updateLogWeightsDim_closed_form_witness :
    (updateLogWeightsDim [1/2, 1/3] 1 2 [(0, 1), (1, 2)] [0, 0]).getD 1 0 =
      clip30 ((0 : ℚ) + 2 * ((2 : ℚ) / (1/3)) * 1 / 2) := by
  have h := updateLogWeightsDim_closed_form [1/2, 1/3] [0, 0] 1 2
    [(0, 1), (1, 2)] (by decide) 1 2 (by decide) (by decide)
  simpa using h

/-- Claim C6, counterexample to the claim as stated: in a space with
exactly one nominal dimension (plus two ordinal ones) and a registered
nominal radius of 2, the mutation loop accepts the candidate `[1, 1, 0]`
at Hamming distance 2 from the center `[0, 0, 0]` — its guard compares
against `tr_manager.radii['nominal'] = 2`, not
`get_nominal_radius() = 1`, so a sample placed in the suggestion queue
can exceed `get_nominal_radius()`. -/
theorem mutate_exceeds_get_nominal_radius_cex :
    mutateTrLoop [0, 0, 0] [3, 3, 3] [0, 0, 0] 2 [1, 0, 0] 1 [(1, 0)] =
        some [1, 1, 0] ∧
      hammingDist [1, 1, 0] [0, 0, 0] = 2 ∧
      getNominalRadius ⟨1, [(nominalKey, 2)]⟩ = Except.ok 1 ∧
      ¬((2 : ℕ) ≤ 1) := by
  exact ⟨by decide, by decide, rfl, by decide⟩

/-- Claim C6 (amended): with a trust region, every offspring the GA
queues lies within Hamming distance `tr_manager.radii['nominal']` of the
center (this equals `get_nominal_radius()` except in the one-nominal-dim
degenerate case): the crossover projection resets
`distance - get_nominal_radius()` differing coordinates to the center's
values, leaving a child within the radius, and the mutation loop rejects
candidates until the distance is at most `radii['nominal']`. -/
theorem tr_offspring_within_radius :
    (∀ (idx : ℕ) (x1 x2 center : List ℤ) (r : ℕ) (s : List ℕ),
      (hammingDist (crossoverSwap idx x1 x2) center > r →
        s.Nodup ∧ s ⊆ diffPositions (crossoverSwap idx x1 x2) center ∧
          s.length = hammingDist (crossoverSwap idx x1 x2) center - r) →
      hammingDist (crossoverChildTr idx x1 x2 center r s) center ≤ r) ∧
    (∀ (lb ub center x : List ℤ) (radiiNominal fuel : ℕ)
      (choices : List (ℕ × ℕ)) (cand : List ℤ),
      mutateTrLoop lb ub center radiiNominal x fuel choices = some cand →
      hammingDist center cand ≤ radiiNominal) := by
  constructor
  · intro idx x1 x2 center r s hcond
    unfold crossoverChildTr
    by_cases hd : hammingDist (crossoverSwap idx x1 x2) center > r
    · obtain ⟨hnd, hsub, hlen⟩ := hcond hd
      rw [if_pos hd,
        hammingDist_projectToCenter (crossoverSwap idx x1 x2) center s hsub hnd,
        hlen]
      omega
    · rw [if_neg hd]
      omega
  · intro lb ub center x radiiNominal fuel
    induction fuel with
    | zero => intro choices cand h; simp [mutateTrLoop] at h
    | succ n ih =>
      intro choices cand h
      cases choices with
      | nil => simp [mutateTrLoop] at h
      | cons p rest =>
        obtain ⟨pidx, pcat⟩ := p
        simp only [mutateTrLoop] at h
        split at h
        · cases h
          assumption
        · exact ih rest cand h

/-- Witness for C6's amended theorem: a concrete projected crossover
child and a concrete accepted mutation candidate, both within radius. -/
theorem tr_offspring_within_radius_witness :
    hammingDist (crossoverChildTr 2 [0, 0, 0] [1, 1, 1] [0, 0, 0] 1 [0])
        [0, 0, 0] ≤ 1 ∧
      hammingDist [0, 0, 0] [1, 1, 0] ≤ 2 :=
  ⟨tr_offspring_within_radius.1 2 [0, 0, 0] [1, 1, 1] [0, 0, 0] 1 [0]
      (by decide),
   tr_offspring_within_radius.2 [0, 0, 0] [3, 3, 3] [0, 0, 0] [1, 0, 0] 2 1
      [(1, 0)] [1, 1, 0] (by decide)⟩

/-- Claim C7, counterexample to the claim as stated: the acceptance test
for the second mutated child (`_generate_new_population` lines 299-308)
never compares the candidate against the rows already placed in the new
population: with `allow_repeating_suggestions = False`, the candidate
`[0, 0]` is accepted (it differs from the observed rows `[[1, 1]]`)
although it equals the already-placed population row `[0, 0]` — the
first child's test would have rejected it. -/
theorem accept2_ignores_population_cex :
    accept2 false [[1, 1]] [[2, 2]] [0, 0] = true ∧
      accept1 false [[0, 0]] [[1, 1]] [[2, 2]] [0, 0] = false ∧
      ([0, 0] : List ℤ) ∈ [[(0 : ℤ), 0]] := by
  decide

/-- Claim C7 (amended): in `_generate_new_population`, an accepted first
child differs from every row already placed in the new population and —
with `allow_repeating_suggestions` false — from every previously
observed row (with it true, from every elite row); an accepted second
child is only guaranteed to differ from the observed rows (resp. the
elite rows), not from the rows already placed in the new population. -/
theorem dedup_acceptance_spec (allowRep : Bool)
    (pop observed elite : List (List ℤ)) (c : List ℤ) :
    (accept1 allowRep pop observed elite c = true →
      (∀ q ∈ pop, c ≠ q) ∧
      (allowRep = false → ∀ q ∈ observed, c ≠ q) ∧
      (allowRep = true → ∀ q ∈ elite, c ≠ q)) ∧
    (accept2 allowRep observed elite c = true →
      (allowRep = false → ∀ q ∈ observed, c ≠ q) ∧
      (allowRep = true → ∀ q ∈ elite, c ≠ q)) := by
  cases allowRep <;>
    simp [accept1, accept2, differsAll, List.all_eq_true]

/-- Witness for C7's amended theorem at concrete rows. -/
theorem dedup_acceptance_spec_witness :
    ((∀ q ∈ ([[1, 1]] : List (List ℤ)), ([0, 0] : List ℤ) ≠ q) ∧
      (false = false → ∀ q ∈ ([[2, 2]] : List (List ℤ)), ([0, 0] : List ℤ) ≠ q) ∧
      (false = true → ∀ q ∈ ([[3, 3]] : List (List ℤ)), ([0, 0] : List ℤ) ≠ q)) :=
  (dedup_acceptance_spec false [[1, 1]] [[2, 2]] [[3, 3]] [0, 0]).1 (by decide)

/-- Claim C9: the elite-set update of `_generate_new_population` never
worsens the best elite objective: the new elite set is the best
`num_elite` of the old elite set merged with this generation's top
`num_elite`, so its minimum objective is at most the old elite minimum;
on the first generation the elite set is the top `num_elite` rows of the
population sorted ascending by objective. -/
theorem eliteStep_min_monotone (numElite : ℕ)
    (old sortedPop : List (List ℤ × ℚ)) (hne : 1 ≤ numElite) :
    ((eliteStep numElite (some old) sortedPop).map Prod.snd).minimum ≤
        (old.map Prod.snd).minimum ∧
      eliteStep numElite none sortedPop = sortedPop.take numElite := by
  refine ⟨?_, rfl⟩
  rcases eq_or_ne ((old.map Prod.snd).minimum) ⊤ with htop | htop
  · rw [htop]; exact le_top
  · obtain ⟨m, hm⟩ := WithTop.ne_top_iff_exists.mp htop
    obtain ⟨q, hq, hqm⟩ := List.mem_map.mp (List.minimum_mem hm.symm)
    have hqsorted : q ∈ sortByY (old ++ sortedPop.take numElite) :=
      List.mem_mergeSort.mpr (List.mem_append_left _ hq)
    cases hsort : sortByY (old ++ sortedPop.take numElite) with
    | nil => rw [hsort] at hqsorted; cases hqsorted
    | cons hd tl =>
      have hpair : List.Pairwise
          (fun a b : List ℤ × ℚ => (decide (a.2 ≤ b.2)) = true) (hd :: tl) := by
        rw [← hsort]
        exact List.sorted_mergeSort
          (fun a b c h1 h2 => by
            simp only [decide_eq_true_eq] at h1 h2 ⊢
            exact le_trans h1 h2)
          (fun a b => by
            simp only [Bool.or_eq_true, decide_eq_true_eq]
            exact le_total a.2 b.2)
          (old ++ sortedPop.take numElite)
      have hhdq : hd.2 ≤ q.2 := by
        rw [hsort] at hqsorted
        rcases List.mem_cons.mp hqsorted with heq | htl
        · rw [heq]
        · have := (List.pairwise_cons.mp hpair).1 q htl
          simpa using this
      have hstep : eliteStep numElite (some old) sortedPop =
          hd :: tl.take (numElite - 1) := by
        simp only [eliteStep]
        rw [hsort, List.take_cons hne]
      have hmin : ((eliteStep numElite (some old) sortedPop).map
          Prod.snd).minimum ≤ (hd.2 : WithTop ℚ) := by
        apply List.minimum_le_of_mem'
        rw [hstep]
        exact List.mem_map.mpr ⟨hd, List.mem_cons_self hd _, rfl⟩
      rw [← hm]
      calc ((eliteStep numElite (some old) sortedPop).map Prod.snd).minimum
          ≤ (hd.2 : WithTop ℚ) := hmin
        _ ≤ (q.2 : WithTop ℚ) := WithTop.coe_le_coe.mpr hhdq
        _ = (m : WithTop ℚ) := by rw [hqm]

/-- Witness for C9 at a concrete elite set and population. -/
theorem eliteStep_min_monotone_witness :
    ((eliteStep 2 (some [([0], 5)]) [([1], 3)]).map Prod.snd).minimum ≤
        (([([0], (5 : ℚ))]).map Prod.snd).minimum ∧
      eliteStep 2 none [([1], (3 : ℚ))] = [([1], (3 : ℚ))].take 2 :=
  eliteStep_min_monotone 2 [([0], 5)] [([1], 3)] (by decide)

/-- Claim C5, counterexample to the claim as stated: with `max_n_iter = 1`
(so `best_ube = 2/3`), `batch_size = 1` and a dimension with 3 categories,
the constructed exploration rate is
`gamma = sqrt(3·ln 3 / ((e-1)·(2/3))) > 1`, and `update_prob_dist` on the
initial all-zero log-weights produces uniform probabilities `1/3`, which
lie strictly below the claimed floor `gamma/3`. -/
theorem updateProbDistDim_floor_cex :
    (updateProbDistDim [0, 0, 0] (gammaOf 3 1 (bestUbe 1))).getD 0 0 <
      gammaOf 3 1 (bestUbe 1) / 3 := by
  have he1 : Real.exp 1 < 2.7182818286 := Real.exp_one_lt_d9
  have he2 : (2.7182818283 : ℝ) < Real.exp 1 := Real.exp_one_gt_d9
  have hlog : 1 < Real.log 3 := by
    rw [Real.lt_log_iff_exp_lt (by norm_num : (0 : ℝ) < 3)]
    linarith
  have hγ : 1 < gammaOf 3 1 (bestUbe 1) := by
    unfold gammaOf bestUbe
    rw [if_pos (by norm_num : (3 : ℕ) > 1)]
    apply (Real.lt_sqrt (by norm_num : (0 : ℝ) ≤ 1)).mpr
    push_cast
    norm_num
    have hb : (0 : ℝ) < (Real.exp 1 - 1) * (2 / 3) := by nlinarith
    rw [lt_div_iff₀ hb]
    nlinarith
  have hval : (updateProbDistDim [0, 0, 0] (gammaOf 3 1 (bestUbe 1))).getD 0 0 =
      1 / 3 := by
    simp [updateProbDistDim, Real.exp_zero]
    ring
  rw [hval]
  linarith

/-- Claim C5 (amended): `update_prob_dist` produces, per dimension and
for every exploration rate, a probability vector that sums to 1; and
whenever the dimension's exploration rate satisfies
`0 ≤ gamma[j] ≤ 1`, every entry is at least `gamma[j] / n_cats[j]`.
(The constructed `gamma` can exceed 1 for small `max_n_iter`, in which
case the floor fails — see the counterexample — but the sum is 1 there
too.) -/
theorem updateProbDistDim_sum_one_and_floor (lw : List ℝ) (γ : ℝ)
    (hne : lw ≠ []) :
    (updateProbDistDim lw γ).sum = 1 ∧
      (0 ≤ γ → γ ≤ 1 →
        ∀ p ∈ updateProbDistDim lw γ, γ / lw.length ≤ p) := by
  have hlen : 0 < lw.length := List.length_pos.mpr hne
  have hwpos : ∀ x ∈ lw.map Real.exp, 0 < x := by
    intro x hx
    obtain ⟨y, _, rfl⟩ := List.mem_map.mp hx
    exact Real.exp_pos y
  have hwne : lw.map Real.exp ≠ [] := by
    simpa using hne
  have hnorm : 0 < (lw.map Real.exp).sum := List.sum_pos _ hwpos hwne
  have hS : (lw.map Real.exp).sum ≠ 0 := ne_of_gt hnorm
  have hn : ((lw.length : ℝ)) ≠ 0 := ne_of_gt (Nat.cast_pos.mpr hlen)
  constructor
  · show ((lw.map Real.exp).map
        (fun w => (1 - γ) * (w / (lw.map Real.exp).sum) + γ / lw.length)).sum = 1
    have hfun : (fun w => (1 - γ) * (w / (lw.map Real.exp).sum) +
        γ / (lw.length : ℝ)) =
        (fun w => ((1 - γ) / (lw.map Real.exp).sum) * w + γ / lw.length) := by
      funext w
      ring
    rw [hfun, sum_map_affine, List.length_map]
    field_simp
  · intro _ h1 p hp
    obtain ⟨x, hx, rfl⟩ := List.mem_map.mp hp
    have hxpos := hwpos x hx
    have hterm : 0 ≤ (1 - γ) * (x / (lw.map Real.exp).sum) :=
      mul_nonneg (by linarith) (le_of_lt (div_pos hxpos hnorm))
    linarith

/-- Witness for C5's amended theorem at `lw = [0, 0]`, `γ = 1/2`. -/
theorem updateProbDistDim_sum_one_and_floor_witness :
    (updateProbDistDim [0, 0] (1 / 2)).sum = 1 ∧
      (0 ≤ (1 : ℝ) / 2 → (1 : ℝ) / 2 ≤ 1 →
        ∀ p ∈ updateProbDistDim [0, 0] ((1 : ℝ) / 2),
          (1 : ℝ) / 2 / ([(0 : ℝ), 0].length) ≤ p) :=
  updateProbDistDim_sum_one_and_floor [0, 0] (1 / 2) (by simp)

end CombOpt
